import Mathlib

/-!
Verification of the UM-KM-StringCrypt headers.

The development shallowly embeds the two C++ headers of the repository:

* `secure_string.hpp` — embedded at top level (`KeyGen`, `SecureString`);
* `SecureString.hpp`  — embedded in namespace `Um` (`Um.KeyGen`, `Um.SecureString`).

Machine integers are modelled as `Nat` with explicit reductions `% 2 ^ 64`
(for `unsigned long long` / `uint64_t` arithmetic that can wrap) and `% 256`
(for the `unsigned char` / `uint8_t` casts).  All definitions are executable.
-/

/-- `2 ^ 64`, the modulus of 64-bit unsigned arithmetic. -/
def MOD64 : Nat := 18446744073709551616

/-- Macro `ROL8(x, r)`: `(unsigned char)(((x) << ((r) % 8)) | ((x) >> (8 - ((r) % 8))))`.
The shifts happen in the (promoted) integer type of `x`; only the final cast
truncates to 8 bits, which `% 256` models (dropped high bits of a wrapping
left shift are above bit 8 and cannot affect the low byte). -/
def ROL8 (x r : Nat) : Nat :=
  ((x <<< (r % 8)) ||| (x >>> (8 - r % 8))) % 256

/-- Macro `ROR8(x, r)`: `(unsigned char)(((x) >> ((r) % 8)) | ((x) << (8 - ((r) % 8))))`. -/
def ROR8 (x r : Nat) : Nat :=
  ((x >>> (r % 8)) ||| (x <<< (8 - r % 8))) % 256

namespace KeyGen

/-- `KeyGen::mix` from `secure_string.hpp`: a 64-bit avalanche mixer. -/
def mix (x : Nat) : Nat :=
  let x := x ^^^ (x >>> 33)
  let x := (x * 0xD6E8FEB86659FD93) % MOD64
  let x := x ^^^ (x >>> 33)
  let x := (x * 0xA5CB3E2C1F16F4C5) % MOD64
  x ^^^ (x >>> 33)

/-- `KeyGen::get_byte` from `secure_string.hpp`.  The template parameter `N`
is unused by the body, so it is not a parameter here; `Seed` and `Round` are
the remaining template parameters. -/
def get_byte (Seed Round index : Nat) : Nat :=
  let magic := 0x3C6EF372FE94F82B
  let val := Seed ^^^ ((index * magic) % MOD64)
  let val := mix val ^^^ ((Round * 0x0F1E2D3C4B5A6978) % MOD64)
  let val := (val >>> 32) ^^^ (val &&& 0xFFFFFFFF)
  (val ^^^ (val >>> 16) ^^^ (val >>> 8)) % 256

/-- `KeyGen::get` from `secure_string.hpp`.  `N - index - 1 + Round` is
`uint64_t` arithmetic; for `index < N` (the range every caller uses) it never
wraps, so plain `Nat` subtraction coincides with the C computation. -/
def get (N Seed Round index : Nat) : Nat :=
  let k := get_byte Seed Round index ^^^ get_byte Seed Round (N - index - 1 + Round)
  ROL8 (k ^^^ index ^^^ (Seed &&& 0xFF)) ((index + Round) % 8 + 1)

end KeyGen

namespace SecureString

/-- `SecureString::obfuscate` from `secure_string.hpp`.  `static_cast<unsigned char>(c)`
is `c % 256`; `(i * i)` is `uint64_t` multiplication, hence the `% MOD64`;
`~(tmp + (k2 ^ k3))` assigned to `unsigned char` is `255 - ((tmp + (k2 ^^^ k3)) % 256)`. -/
def obfuscate (N Seed c i : Nat) : Nat :=
  let k1 := KeyGen.get N Seed 0 i
  let k2 := KeyGen.get N (Seed ^^^ 0xBAADF00DDEADC0DE) 0 (N - i - 1)
  let k3 := KeyGen.get N (Seed ^^^ 0xFEEDBABECAFED00D) 0 ((i * i % MOD64) % N)
  let tmp := (c % 256) ^^^ k1
  let tmp := ROL8 tmp ((k2 % 7) + 1)
  let tmp := 255 - ((tmp + (k2 ^^^ k3)) % 256)
  let tmp := tmp ^^^ 0xA5
  ROR8 tmp ((i + k3) % 8)

/-- `SecureString::deobfuscate` from `secure_string.hpp`.
`(unsigned char)(~(tmp) - (k2 ^ k3))` is `(255 - tmp - (k2 ^^^ k3)) mod 256`,
written Nat-safely as `(255 - tmp + 256 - (k2 ^^^ k3)) % 256`. -/
def deobfuscate (N Seed c i : Nat) : Nat :=
  let k1 := KeyGen.get N Seed 0 i
  let k2 := KeyGen.get N (Seed ^^^ 0xBAADF00DDEADC0DE) 0 (N - i - 1)
  let k3 := KeyGen.get N (Seed ^^^ 0xFEEDBABECAFED00D) 0 ((i * i % MOD64) % N)
  let tmp := c % 256
  let tmp := ROL8 tmp ((i + k3) % 8)
  let tmp := tmp ^^^ 0xA5
  let tmp := (255 - tmp + 256 - (k2 ^^^ k3)) % 256
  let tmp := ROR8 tmp ((k2 % 7) + 1)
  tmp ^^^ k1

/-- The constructor loop of `SecureString` (`secure_string.hpp`):
`encrypted[i] = obfuscate(input[i], i)` for `i = i0, i0+1, ...`. -/
def obfList (N Seed : Nat) (input : List Nat) (i0 : Nat) : List Nat :=
  match input with
  | [] => []
  | c :: rest => obfuscate N Seed c i0 :: obfList N Seed rest (i0 + 1)

/-- The `encrypted` member built by the constructor from the whole input. -/
def encrypted (N Seed : Nat) (input : List Nat) : List Nat :=
  obfList N Seed input 0

/-- The `decrypt` loop, modelled with explicit fuel (the loop body runs for
`i = i0` while `i < N`, writing `out[i] = deobfuscate(enc[i], i)`; fuel
`N - i0` bounds the iterations). -/
def decryptLoop (N Seed : Nat) (enc : List Nat) : Nat → Nat → List Nat → List Nat
  | 0, _, out => out
  | fuel + 1, i, out =>
      if i < N then
        decryptLoop N Seed enc fuel (i + 1)
          (out.set i (deobfuscate N Seed (enc.getD i 0) i))
      else out

/-- `SecureString::decrypt(out)`: runs the loop from `i = 0`. -/
def decrypt (N Seed : Nat) (enc out : List Nat) : List Nat :=
  decryptLoop N Seed enc N 0 out

/-- `decrypt` as a state transformer on the instance: it returns the written
output buffer together with the (untouched, `const`) cipher buffer. -/
def decryptInto (N Seed : Nat) (enc out : List Nat) : List Nat × List Nat :=
  (decrypt N Seed enc out, enc)

end SecureString

namespace Um

namespace KeyGen

/-- `KeyGen::mix` from `SecureString.hpp`. -/
def mix (x : Nat) : Nat :=
  let x := x ^^^ (x >>> 33)
  let x := (x * 0xD6E8FEB86659FD93) % MOD64
  let x := x ^^^ (x >>> 33)
  let x := (x * 0xA5CB3E2C1F16F4C5) % MOD64
  x ^^^ (x >>> 33)

/-- `KeyGen::get_byte` from `SecureString.hpp`. -/
def get_byte (Seed Round index : Nat) : Nat :=
  let magic := 0x3C6EF372FE94F82B
  let val := Seed ^^^ ((index * magic) % MOD64)
  let val := mix val ^^^ ((Round * 0x0F1E2D3C4B5A6978) % MOD64)
  let val := (val >>> 32) ^^^ (val &&& 0xFFFFFFFF)
  (val ^^^ (val >>> 16) ^^^ (val >>> 8)) % 256

/-- `KeyGen::get` from `SecureString.hpp`. -/
def get (N Seed Round index : Nat) : Nat :=
  let k := get_byte Seed Round index ^^^ get_byte Seed Round (N - index - 1 + Round)
  ROL8 (k ^^^ index ^^^ (Seed &&& 0xFF)) ((index + Round) % 8 + 1)

end KeyGen

namespace SecureString

/-- `SecureString::obfuscate` from `SecureString.hpp` (stage-4 constant `0x5A`). -/
def obfuscate (N Seed c i : Nat) : Nat :=
  let k1 := Um.KeyGen.get N Seed 0 i
  let k2 := Um.KeyGen.get N (Seed ^^^ 0xBAADF00DDEADC0DE) 0 (N - i - 1)
  let k3 := Um.KeyGen.get N (Seed ^^^ 0xFEEDBABECAFED00D) 0 ((i * i % MOD64) % N)
  let tmp := (c % 256) ^^^ k1
  let tmp := ROL8 tmp ((k2 % 7) + 1)
  let tmp := 255 - ((tmp + (k2 ^^^ k3)) % 256)
  let tmp := tmp ^^^ 0x5A
  ROR8 tmp ((i + k3) % 8)

/-- `SecureString::deobfuscate` from `SecureString.hpp` (stage-4 constant `0x5A`). -/
def deobfuscate (N Seed c i : Nat) : Nat :=
  let k1 := Um.KeyGen.get N Seed 0 i
  let k2 := Um.KeyGen.get N (Seed ^^^ 0xBAADF00DDEADC0DE) 0 (N - i - 1)
  let k3 := Um.KeyGen.get N (Seed ^^^ 0xFEEDBABECAFED00D) 0 ((i * i % MOD64) % N)
  let tmp := c % 256
  let tmp := ROL8 tmp ((i + k3) % 8)
  let tmp := tmp ^^^ 0x5A
  let tmp := (255 - tmp + 256 - (k2 ^^^ k3)) % 256
  let tmp := ROR8 tmp ((k2 % 7) + 1)
  tmp ^^^ k1

end SecureString

end Um

/-- The transform pipeline with the stage-4 XOR constant as a parameter
(`0xA5` in `secure_string.hpp`, `0x5A` in `SecureString.hpp`) and the three
key bytes abstracted. -/
def encodeWith (xc k1 k2 k3 c i : Nat) : Nat :=
  let tmp := (c % 256) ^^^ k1
  let tmp := ROL8 tmp ((k2 % 7) + 1)
  let tmp := 255 - ((tmp + (k2 ^^^ k3)) % 256)
  let tmp := tmp ^^^ xc
  ROR8 tmp ((i + k3) % 8)

/-- The inverse pipeline with the stage-4 XOR constant as a parameter. -/
def decodeWith (xc k1 k2 k3 c i : Nat) : Nat :=
  let tmp := c % 256
  let tmp := ROL8 tmp ((i + k3) % 8)
  let tmp := tmp ^^^ xc
  let tmp := (255 - tmp + 256 - (k2 ^^^ k3)) % 256
  let tmp := ROR8 tmp ((k2 % 7) + 1)
  tmp ^^^ k1

/-- Key byte `k1` shared by `obfuscate` and `deobfuscate`. -/
def keyA (N Seed i : Nat) : Nat := KeyGen.get N Seed 0 i

/-- Key byte `k2` shared by `obfuscate` and `deobfuscate`. -/
def keyB (N Seed i : Nat) : Nat :=
  KeyGen.get N (Seed ^^^ 0xBAADF00DDEADC0DE) 0 (N - i - 1)

/-- Key byte `k3` shared by `obfuscate` and `deobfuscate`. -/
def keyC (N Seed i : Nat) : Nat :=
  KeyGen.get N (Seed ^^^ 0xFEEDBABECAFED00D) 0 ((i * i % MOD64) % N)

/-- The 32-bit fold computed inside `KeyGen::get_byte`: the mixed 64-bit
value XOR-folded upper half against lower half. -/
def fold32 (Seed Round index : Nat) : Nat :=
  let magic := 0x3C6EF372FE94F82B
  let val := Seed ^^^ ((index * magic) % MOD64)
  let val := KeyGen.mix val ^^^ ((Round * 0x0F1E2D3C4B5A6978) % MOD64)
  (val >>> 32) ^^^ (val &&& 0xFFFFFFFF)

/-- Modelled from the spec: §4.1 step 1 says the 64-bit result is folded
down to 8 bits by XOR-ing its four constituent byte lanes (upper 32 bits
against lower 32 bits, then halves again), i.e. all four bytes of the 32-bit
intermediate are combined. -/
def get_byte_specFold (Seed Round index : Nat) : Nat :=
  let val := fold32 Seed Round index
  ((val % 256) ^^^ ((val >>> 8) % 256)) ^^^ (((val >>> 16) % 256) ^^^ ((val >>> 24) % 256))

-- Basic bounds

theorem ROL8_lt (x r : Nat) : ROL8 x r < 256 :=
  Nat.mod_lt _ (by omega)

theorem ROR8_lt (x r : Nat) : ROR8 x r < 256 :=
  Nat.mod_lt _ (by omega)

theorem xorLt256 {a b : Nat} (ha : a < 256) (hb : b < 256) : a ^^^ b < 256 :=
  Nat.xor_lt_two_pow (n := 8) ha hb

theorem KeyGen.get_byte_lt (Seed Round index : Nat) :
    KeyGen.get_byte Seed Round index < 256 :=
  Nat.mod_lt _ (by omega)

theorem KeyGen.get_lt (N Seed Round index : Nat) :
    KeyGen.get N Seed Round index < 256 :=
  ROL8_lt _ _

theorem Um.KeyGen.um_get_lt (N Seed Round index : Nat) :
    Um.KeyGen.get N Seed Round index < 256 :=
  ROL8_lt _ _

-- Rotation algebra: `ROL8` and `ROR8` are mutually inverse on byte values.

theorem ROL8_mod8 (x r : Nat) : ROL8 x r = ROL8 x (r % 8) := by
  unfold ROL8
  rw [Nat.mod_mod_of_dvd r dvd_rfl]

theorem ROR8_mod8 (x r : Nat) : ROR8 x r = ROR8 x (r % 8) := by
  unfold ROR8
  rw [Nat.mod_mod_of_dvd r dvd_rfl]

set_option maxRecDepth 8192 in
theorem byte_ror_rol : ∀ x < 256, ∀ s < 8, ROR8 (ROL8 x s) s = x := by decide

set_option maxRecDepth 8192 in
theorem byte_rol_ror : ∀ x < 256, ∀ s < 8, ROL8 (ROR8 x s) s = x := by decide

theorem ROR8_ROL8 {x : Nat} (hx : x < 256) (r : Nat) : ROR8 (ROL8 x r) r = x := by
  rw [ROL8_mod8, ROR8_mod8]
  exact byte_ror_rol x hx (r % 8) (Nat.mod_lt _ (by omega))

theorem ROL8_ROR8 {x : Nat} (hx : x < 256) (r : Nat) : ROL8 (ROR8 x r) r = x := by
  rw [ROR8_mod8, ROL8_mod8]
  exact byte_rol_ror x hx (r % 8) (Nat.mod_lt _ (by omega))

-- Stage 3 (complement-of-sum) and its inverse (complement-then-subtract).

theorem stage3_dec_enc (b k : Nat) (hb : b < 256) (hk : k < 256) :
    (255 - (255 - ((b + k) % 256)) + 256 - k) % 256 = b := by omega

theorem stage3_enc_dec (t k : Nat) (ht : t < 256) (hk : k < 256) :
    255 - ((((255 - t + 256 - k) % 256) + k) % 256) = t := by omega

/-- `decodeWith` inverts `encodeWith` (on the low byte) for any byte-sized
stage-4 constant and byte-sized keys. -/
theorem decodeWith_encodeWith (xc k1 k2 k3 c i : Nat) (hxc : xc < 256)
    (hk1 : k1 < 256) (hk2 : k2 < 256) (hk3 : k3 < 256) :
    decodeWith xc k1 k2 k3 (encodeWith xc k1 k2 k3 c i) i = c % 256 := by
  have hc : c % 256 < 256 := Nat.mod_lt _ (by omega)
  have hk : k2 ^^^ k3 < 256 := xorLt256 hk2 hk3
  set a := (c % 256) ^^^ k1 with ha_def
  have ha : a < 256 := xorLt256 hc hk1
  set b := ROL8 a ((k2 % 7) + 1) with hb_def
  have hb : b < 256 := ROL8_lt _ _
  set d := 255 - ((b + (k2 ^^^ k3)) % 256) with hd_def
  have hd : d < 256 := by omega
  set e := d ^^^ xc with he_def
  have he : e < 256 := xorLt256 hd hxc
  show decodeWith xc k1 k2 k3 (ROR8 e ((i + k3) % 8)) i = c % 256
  simp only [decodeWith]
  rw [Nat.mod_eq_of_lt (ROR8_lt _ _), ROL8_ROR8 he, he_def, Nat.xor_cancel_right, hd_def,
    stage3_dec_enc b _ hb hk, hb_def, ROR8_ROL8 ha, ha_def, Nat.xor_cancel_right]

/-- `encodeWith` also inverts `decodeWith` (on the low byte): the pipeline is
a two-sided inverse pair, hence a bijection on bytes. -/
theorem encodeWith_decodeWith (xc k1 k2 k3 c i : Nat) (hxc : xc < 256)
    (hk1 : k1 < 256) (hk2 : k2 < 256) (hk3 : k3 < 256) :
    encodeWith xc k1 k2 k3 (decodeWith xc k1 k2 k3 c i) i = c % 256 := by
  have hc : c % 256 < 256 := Nat.mod_lt _ (by omega)
  have hk : k2 ^^^ k3 < 256 := xorLt256 hk2 hk3
  set L := ROL8 (c % 256) ((i + k3) % 8) with hL_def
  have hL : L < 256 := ROL8_lt _ _
  set E := L ^^^ xc with hE_def
  have hE : E < 256 := xorLt256 hL hxc
  set D := (255 - E + 256 - (k2 ^^^ k3)) % 256 with hD_def
  have hD : D < 256 := Nat.mod_lt _ (by omega)
  set R := ROR8 D ((k2 % 7) + 1) with hR_def
  have hR : R < 256 := ROR8_lt _ _
  have hy : R ^^^ k1 < 256 := xorLt256 hR hk1
  show encodeWith xc k1 k2 k3 (R ^^^ k1) i = c % 256
  simp only [encodeWith]
  rw [Nat.mod_eq_of_lt hy, Nat.xor_cancel_right, hR_def, ROL8_ROR8 hD, hD_def,
    stage3_enc_dec E _ hE hk, hE_def, Nat.xor_cancel_right, hL_def, ROR8_ROL8 hc]

-- Key bounds and pipeline instantiations

theorem keyA_lt (N Seed i : Nat) : keyA N Seed i < 256 := KeyGen.get_lt _ _ _ _

theorem keyB_lt (N Seed i : Nat) : keyB N Seed i < 256 := KeyGen.get_lt _ _ _ _

theorem keyC_lt (N Seed i : Nat) : keyC N Seed i < 256 := KeyGen.get_lt _ _ _ _

theorem SecureString.obfuscate_eq (N Seed c i : Nat) :
    SecureString.obfuscate N Seed c i =
      encodeWith 0xA5 (keyA N Seed i) (keyB N Seed i) (keyC N Seed i) c i := rfl

theorem SecureString.deobfuscate_eq (N Seed c i : Nat) :
    SecureString.deobfuscate N Seed c i =
      decodeWith 0xA5 (keyA N Seed i) (keyB N Seed i) (keyC N Seed i) c i := rfl

theorem Um.SecureString.um_obfuscate_eq (N Seed c i : Nat) :
    Um.SecureString.obfuscate N Seed c i =
      encodeWith 0x5A (keyA N Seed i) (keyB N Seed i) (keyC N Seed i) c i := rfl

theorem Um.SecureString.um_deobfuscate_eq (N Seed c i : Nat) :
    Um.SecureString.deobfuscate N Seed c i =
      decodeWith 0x5A (keyA N Seed i) (keyB N Seed i) (keyC N Seed i) c i := rfl

/-- Per-position round trip for `secure_string.hpp`: decoding an encoded unit
recovers its low byte, unconditionally. -/
theorem SecureString.deob_obf (N Seed c i : Nat) :
    SecureString.deobfuscate N Seed (SecureString.obfuscate N Seed c i) i = c % 256 := by
  rw [SecureString.obfuscate_eq, SecureString.deobfuscate_eq]
  exact decodeWith_encodeWith _ _ _ _ c i (by omega)
    (keyA_lt N Seed i) (keyB_lt N Seed i) (keyC_lt N Seed i)

/-- Per-position converse round trip for `secure_string.hpp`. -/
theorem SecureString.obf_deob (N Seed c i : Nat) :
    SecureString.obfuscate N Seed (SecureString.deobfuscate N Seed c i) i = c % 256 := by
  rw [SecureString.obfuscate_eq, SecureString.deobfuscate_eq]
  exact encodeWith_decodeWith _ _ _ _ c i (by omega)
    (keyA_lt N Seed i) (keyB_lt N Seed i) (keyC_lt N Seed i)

/-- Per-position round trip for the `SecureString.hpp` variant. -/
theorem Um.SecureString.um_deob_obf (N Seed c i : Nat) :
    Um.SecureString.deobfuscate N Seed (Um.SecureString.obfuscate N Seed c i) i = c % 256 := by
  rw [Um.SecureString.um_obfuscate_eq, Um.SecureString.um_deobfuscate_eq]
  exact decodeWith_encodeWith _ _ _ _ c i (by omega)
    (keyA_lt N Seed i) (keyB_lt N Seed i) (keyC_lt N Seed i)

theorem SecureString.obfuscate_lt (N Seed c i : Nat) :
    SecureString.obfuscate N Seed c i < 256 := ROR8_lt _ _

theorem SecureString.deobfuscate_lt (N Seed c i : Nat) :
    SecureString.deobfuscate N Seed c i < 256 :=
  xorLt256 (ROR8_lt _ _) (KeyGen.get_lt _ _ _ _)

-- Constructor list lemmas

theorem SecureString.obfList_length (N Seed : Nat) :
    ∀ (P : List Nat) (i0 : Nat), (SecureString.obfList N Seed P i0).length = P.length := by
  intro P
  induction P with
  | nil => intro i0; rfl
  | cons c rest ih => intro i0; simp [SecureString.obfList, ih (i0 + 1)]

theorem SecureString.obfList_getElem (N Seed : Nat) :
    ∀ (P : List Nat) (i0 j : Nat),
      (SecureString.obfList N Seed P i0)[j]? =
        (P[j]?).map (fun c => SecureString.obfuscate N Seed c (i0 + j)) := by
  intro P
  induction P with
  | nil => intro i0 j; simp [SecureString.obfList]
  | cons c rest ih =>
      intro i0 j
      cases j with
      | zero => simp [SecureString.obfList]
      | succ j =>
          simpa [SecureString.obfList, Nat.add_assoc, Nat.add_comm, Nat.add_left_comm]
            using ih (i0 + 1) j

-- Decrypt loop: frame and write specification

theorem SecureString.decryptLoop_spec (N Seed : Nat) (enc : List Nat) :
    ∀ (fuel : Nat), ∀ (i : Nat) (out : List Nat), N ≤ i + fuel → N ≤ out.length →
      ((SecureString.decryptLoop N Seed enc fuel i out).length = out.length) ∧
      (∀ j, j < i ∨ N ≤ j →
        (SecureString.decryptLoop N Seed enc fuel i out)[j]? = out[j]?) ∧
      (∀ j, i ≤ j → j < N →
        (SecureString.decryptLoop N Seed enc fuel i out)[j]? =
          some (SecureString.deobfuscate N Seed (enc.getD j 0) j)) := by
  intro fuel
  induction fuel with
  | zero =>
      intro i out hif hlen
      exact ⟨rfl, fun j hj => rfl, fun j hij hjN => absurd hjN (by omega)⟩
  | succ fuel ih =>
      intro i out hif hlen
      by_cases hiN : i < N
      · have hstep : SecureString.decryptLoop N Seed enc (fuel + 1) i out =
            SecureString.decryptLoop N Seed enc fuel (i + 1)
              (out.set i (SecureString.deobfuscate N Seed (enc.getD i 0) i)) := by
          simp [SecureString.decryptLoop, hiN]
        rw [hstep]
        set v := SecureString.deobfuscate N Seed (enc.getD i 0) i with hv
        have hlen2 : N ≤ (out.set i v).length := by simpa using hlen
        obtain ⟨hL, hframe, hwrite⟩ := ih (i + 1) (out.set i v) (by omega) hlen2
        refine ⟨by rw [hL]; simp, ?_, ?_⟩
        · intro j hj
          rw [hframe j (by omega), List.getElem?_set_ne (by omega)]
        · intro j hij hjN
          rcases Nat.eq_or_lt_of_le hij with heq | hlt
          · rw [hframe j (Or.inl (by omega)), ← heq, List.getElem?_set_self (by omega), hv]
          · exact hwrite j (by omega) hjN
      · have hstep : SecureString.decryptLoop N Seed enc (fuel + 1) i out = out := by
          simp [SecureString.decryptLoop, hiN]
        rw [hstep]
        exact ⟨rfl, fun j hj => rfl, fun j hij hjN => absurd hjN (by omega)⟩

-- XOR distributes over truncation to the low byte (used for the key fold).

theorem xor_mod256 (a b : Nat) : (a ^^^ b) % 256 = a % 256 ^^^ b % 256 := by
  have h8 : (256 : Nat) = 2 ^ 8 := by norm_num
  rw [h8]
  apply Nat.eq_of_testBit_eq
  intro j
  simp only [Nat.testBit_mod_two_pow, Nat.testBit_xor, Bool.and_xor_distrib_left]

-- Rotation by amount 8 is the identity on byte values (the macro reduces the
-- shift modulo 8, so an amount of 8 becomes a 0-bit shift).

set_option maxRecDepth 8192 in
theorem ROL8_eight_id : ∀ x < 256, ROL8 x 8 = x := by decide

theorem ROL8_one_ne : ∀ s < 7, ROL8 1 (s + 1) ≠ 1 := by decide

-- Element access helpers for the constructor output.

theorem getD_mem {P : List Nat} {j : Nat} (hj : j < P.length) : P.getD j 0 ∈ P := by
  have h : P.getD j 0 = P[j] := by
    simp [List.getD_eq_getElem?_getD, List.getElem?_eq_getElem hj]
  rw [h]
  exact List.getElem_mem hj

theorem SecureString.encrypted_getD (N Seed : Nat) (P : List Nat) (j : Nat)
    (hj : j < P.length) :
    (SecureString.encrypted N Seed P).getD j 0 =
      SecureString.obfuscate N Seed (P.getD j 0) j := by
  rw [SecureString.encrypted, List.getD_eq_getElem?_getD, SecureString.obfList_getElem]
  simp [List.getElem?_eq_getElem hj, List.getD_eq_getElem?_getD]

/-- C1: Round-trip — for every length `N ≥ 1`, every 64-bit seed, and every
plaintext sequence `P` of `N` 8-bit code units, `deobfuscate (obfuscate (P[i]) i) i = P[i]`
at every index `i < N`, and `decrypt` applied to the buffer built by the
constructor writes exactly the original input sequence into any length-`N`
destination buffer. -/
theorem C1_roundtrip (N Seed : Nat) (P : List Nat) (hN : 1 ≤ N)
    (hlen : P.length = N) (hSeed : Seed < 2 ^ 64) (hP : ∀ c ∈ P, c < 256) :
    (∀ i, i < N →
      SecureString.deobfuscate N Seed (SecureString.obfuscate N Seed (P.getD i 0) i) i =
        P.getD i 0) ∧
    (∀ out : List Nat, out.length = N →
      SecureString.decrypt N Seed (SecureString.encrypted N Seed P) out = P) := by
  constructor
  · intro i hi
    rw [SecureString.deob_obf]
    exact Nat.mod_eq_of_lt (hP _ (getD_mem (by omega)))
  · intro out hout
    obtain ⟨hL, hframe, hwrite⟩ :=
      SecureString.decryptLoop_spec N Seed (SecureString.encrypted N Seed P) N 0 out
        (by omega) (by omega)
    apply List.ext_getElem?
    intro j
    by_cases hj : j < N
    · rw [SecureString.decrypt, hwrite j (by omega) hj,
        SecureString.encrypted_getD N Seed P j (by omega), SecureString.deob_obf,
        Nat.mod_eq_of_lt (hP _ (getD_mem (by omega)))]
      have hj2 : j < P.length := by omega
      simp [List.getElem?_eq_getElem hj2, List.getD_eq_getElem?_getD]
    · rw [SecureString.decrypt, hframe j (by omega),
        List.getElem?_eq_none (by omega), List.getElem?_eq_none (by omega)]

/-- C1 witness: a concrete instantiation of the round trip. -/
theorem C1_roundtrip_witness :
    SecureString.decrypt 1 1 (SecureString.encrypted 1 1 [72]) [0] = [72] :=
  (C1_roundtrip 1 1 [72] (by decide) (by decide) (by norm_num) (by decide)).2 [0] (by decide)

/-- C2: Per-position bijectivity — for every `N ≥ 1`, seed and position
`i < N`, `obfuscate` at position `i` is a permutation of the byte domain
`{0,...,255}`, `deobfuscate` at the same position is a two-sided inverse of
it, and it is the unique inverse: any left inverse of `obfuscate` on bytes
agrees with `deobfuscate` on every byte. -/
theorem C2_bijectivity (N Seed i : Nat) (hN : 1 ≤ N) (hi : i < N) :
    Set.BijOn (fun c => SecureString.obfuscate N Seed c i) (Set.Iio 256) (Set.Iio 256) ∧
    (∀ c, c < 256 →
      SecureString.deobfuscate N Seed (SecureString.obfuscate N Seed c i) i = c ∧
      SecureString.obfuscate N Seed (SecureString.deobfuscate N Seed c i) i = c) ∧
    (∀ g : Nat → Nat, (∀ c, c < 256 → g (SecureString.obfuscate N Seed c i) = c) →
      ∀ y, y < 256 → g y = SecureString.deobfuscate N Seed y i) := by
  have hdo : ∀ c, c < 256 →
      SecureString.deobfuscate N Seed (SecureString.obfuscate N Seed c i) i = c := by
    intro c hc
    rw [SecureString.deob_obf, Nat.mod_eq_of_lt hc]
  have hod : ∀ c, c < 256 →
      SecureString.obfuscate N Seed (SecureString.deobfuscate N Seed c i) i = c := by
    intro c hc
    rw [SecureString.obf_deob, Nat.mod_eq_of_lt hc]
  refine ⟨⟨?_, ?_, ?_⟩, fun c hc => ⟨hdo c hc, hod c hc⟩, ?_⟩
  · intro c _
    exact Set.mem_Iio.mpr (SecureString.obfuscate_lt N Seed c i)
  · intro c1 h1 c2 h2 heq
    have e1 := hdo c1 (Set.mem_Iio.mp h1)
    have e2 := hdo c2 (Set.mem_Iio.mp h2)
    simp only at heq
    rw [← e1, ← e2, heq]
  · intro y hy
    exact ⟨SecureString.deobfuscate N Seed y i,
      Set.mem_Iio.mpr (SecureString.deobfuscate_lt N Seed y i),
      hod y (Set.mem_Iio.mp hy)⟩
  · intro g hg y hy
    have h := hg (SecureString.deobfuscate N Seed y i) (SecureString.deobfuscate_lt N Seed y i)
    rw [hod y hy] at h
    exact h

/-- C2 witness: a concrete byte round-trips both ways at a concrete position. -/
theorem C2_bijectivity_witness :
    SecureString.deobfuscate 2 5 (SecureString.obfuscate 2 5 7 1) 1 = 7 ∧
    SecureString.obfuscate 2 5 (SecureString.deobfuscate 2 5 7 1) 1 = 7 :=
  (C2_bijectivity 2 5 1 (by decide) (by decide)).2.1 7 (by decide)

/-- C3: Wide-code-unit truncation — `obfuscate` and `deobfuscate` always
return values with zero high bits (below 256), decoding an encoded unit
yields exactly the low byte `u % 256` of the original unit, and a unit with
a non-zero high byte is therefore not recovered. -/
theorem C3_truncation (N Seed u i : Nat) :
    SecureString.obfuscate N Seed u i < 256 ∧
    SecureString.deobfuscate N Seed u i < 256 ∧
    SecureString.deobfuscate N Seed (SecureString.obfuscate N Seed u i) i = u % 256 ∧
    (256 ≤ u → SecureString.deobfuscate N Seed (SecureString.obfuscate N Seed u i) i ≠ u) := by
  refine ⟨SecureString.obfuscate_lt N Seed u i, SecureString.deobfuscate_lt N Seed u i,
    SecureString.deob_obf N Seed u i, ?_⟩
  intro hu
  rw [SecureString.deob_obf]
  omega

/-- C3 witness: the wide unit 300 comes back as 300 % 256 = 44, not 300. -/
theorem C3_truncation_witness :
    SecureString.deobfuscate 1 1 (SecureString.obfuscate 1 1 300 0) 0 ≠ 300 :=
  (C3_truncation 1 1 300 0).2.2.2 (by decide)

set_option maxRecDepth 8192 in
/-- C4 counterexample: at `N = 8`, `Seed = 0`, `Round = 0`, `index = 7` the
rotation amount is `(7 + 0) % 8 + 1 = 8`, `ROL8 · 8` fixes every byte value
(it is the identity map on the byte domain), and `KeyGen.get` indeed returns
the combined byte unrotated — refuting "this final rotation is never the
identity map on the byte being rotated". -/
theorem C4_counterexample :
    ((7 + 0) % 8 + 1 = 8) ∧
    ((List.range 256).all (fun x => ROL8 x 8 == x) = true) ∧
    KeyGen.get 8 0 0 7 =
      (KeyGen.get_byte 0 0 7 ^^^ KeyGen.get_byte 0 0 0) ^^^ 7 ^^^ (0 &&& 0xFF) := by
  refine ⟨by decide, by decide, ?_⟩
  have h : KeyGen.get 8 0 0 7 =
      ROL8 ((KeyGen.get_byte 0 0 7 ^^^ KeyGen.get_byte 0 0 0) ^^^ 7 ^^^ (0 &&& 0xFF)) 8 := rfl
  rw [h]
  exact ROL8_eight_id _ (xorLt256 (xorLt256 (xorLt256 (KeyGen.get_byte_lt 0 0 7)
    (KeyGen.get_byte_lt 0 0 0)) (by omega)) (by decide))

/-- C4 (amended): `KeyGen.get` rotates the combined byte left by
`(index + Round) % 8 + 1` bits, an amount always in `[1, 8]` and never `0`;
however, when the amount is `8` (exactly when `(index + Round) % 8 = 7`) the
rotation is the identity map on byte values, because the `ROL8` macro reduces
the shift amount modulo 8; for every other amount the rotation is not the
identity map. -/
theorem C4_rotation (N Seed Round index : Nat) :
    1 ≤ (index + Round) % 8 + 1 ∧
    (index + Round) % 8 + 1 ≤ 8 ∧
    (index + Round) % 8 + 1 ≠ 0 ∧
    ((index + Round) % 8 = 7 →
      ∀ x, x < 256 → ROL8 x ((index + Round) % 8 + 1) = x) ∧
    ((index + Round) % 8 ≠ 7 → ROL8 1 ((index + Round) % 8 + 1) ≠ 1) ∧
    KeyGen.get N Seed Round index =
      ROL8 ((KeyGen.get_byte Seed Round index ^^^
              KeyGen.get_byte Seed Round (N - index - 1 + Round)) ^^^
            index ^^^ (Seed &&& 0xFF))
        ((index + Round) % 8 + 1) := by
  have hm : (index + Round) % 8 < 8 := Nat.mod_lt _ (by omega)
  refine ⟨by omega, by omega, by omega, ?_, ?_, rfl⟩
  · intro h7 x hx
    rw [h7]
    exact ROL8_eight_id x hx
  · intro h7
    exact ROL8_one_ne ((index + Round) % 8) (by omega)

/-- C4 witness: at an index with `(index + Round) % 8 = 7` the final rotation
fixes a concrete byte. -/
theorem C4_rotation_witness : ROL8 200 ((7 + 0) % 8 + 1) = 200 :=
  (C4_rotation 8 0 0 7).2.2.2.1 (by decide) 200 (by decide)

/-- C5 counterexample: at `Seed = 1`, `Round = 0`, `index = 0`, the byte
returned by `KeyGen.get_byte` differs from the XOR of all four byte lanes of
the 32-bit fold — the code combines only three lanes. -/
theorem C5_counterexample :
    KeyGen.get_byte 1 0 0 ≠ get_byte_specFold 1 0 0 := by decide

/-- C5 (amended): the 8-bit result of `KeyGen.get_byte` equals the XOR of
byte lanes 0, 1 and 2 of the 32-bit value obtained by XOR-ing the upper 32
bits of the mixed-and-round-folded 64-bit value against its lower 32 bits;
the top lane (bits 24–31) is not part of the fold. -/
theorem C5_fold (Seed Round index : Nat) :
    KeyGen.get_byte Seed Round index =
      (fold32 Seed Round index % 256 ^^^ (fold32 Seed Round index >>> 8) % 256) ^^^
        (fold32 Seed Round index >>> 16) % 256 := by
  have h : KeyGen.get_byte Seed Round index =
      ((fold32 Seed Round index ^^^ (fold32 Seed Round index >>> 16)) ^^^
        (fold32 Seed Round index >>> 8)) % 256 := rfl
  rw [h, xor_mod256, xor_mod256, Nat.xor_assoc, Nat.xor_assoc,
    Nat.xor_comm ((fold32 Seed Round index >>> 16) % 256)]

/-- C6: Key derivation — both `obfuscate` and `deobfuscate` compute the same
key triple `k1 = get(i)` from `Seed`, `k2 = get(N-i-1)` from `Seed XOR K1`,
`k3 = get((i*i) mod N)` from `Seed XOR K2`, with
`K1 = 0xBAADF00DDEADC0DE` and `K2 = 0xFEEDBABECAFED00D` distinct from each
other and from the magic and round constants of the key generator. -/
theorem C6_keys (N Seed c i : Nat) :
    SecureString.obfuscate N Seed c i =
      encodeWith 0xA5 (KeyGen.get N Seed 0 i)
        (KeyGen.get N (Seed ^^^ 0xBAADF00DDEADC0DE) 0 (N - i - 1))
        (KeyGen.get N (Seed ^^^ 0xFEEDBABECAFED00D) 0 ((i * i % MOD64) % N)) c i ∧
    SecureString.deobfuscate N Seed c i =
      decodeWith 0xA5 (KeyGen.get N Seed 0 i)
        (KeyGen.get N (Seed ^^^ 0xBAADF00DDEADC0DE) 0 (N - i - 1))
        (KeyGen.get N (Seed ^^^ 0xFEEDBABECAFED00D) 0 ((i * i % MOD64) % N)) c i ∧
    (0xBAADF00DDEADC0DE : Nat) ≠ 0xFEEDBABECAFED00D ∧
    (0xBAADF00DDEADC0DE : Nat) ≠ 0x3C6EF372FE94F82B ∧
    (0xBAADF00DDEADC0DE : Nat) ≠ 0x0F1E2D3C4B5A6978 ∧
    (0xFEEDBABECAFED00D : Nat) ≠ 0x3C6EF372FE94F82B ∧
    (0xFEEDBABECAFED00D : Nat) ≠ 0x0F1E2D3C4B5A6978 :=
  ⟨rfl, rfl, by decide, by decide, by decide, by decide, by decide⟩

/-- C7: Frame — for any destination buffer of capacity `≥ N`, `decrypt`
writes exactly `out[i] = deobfuscate(encrypted[i], i)` for `i < N`, leaves
every position `≥ N` of the destination unchanged, preserves the buffer
length, and leaves the encrypted cipher buffer unmodified. -/
theorem C7_frame (N Seed : Nat) (enc out : List Nat) (hout : N ≤ out.length) :
    ((SecureString.decryptInto N Seed enc out).1.length = out.length) ∧
    (∀ i, i < N → (SecureString.decryptInto N Seed enc out).1[i]? =
      some (SecureString.deobfuscate N Seed (enc.getD i 0) i)) ∧
    (∀ j, N ≤ j → (SecureString.decryptInto N Seed enc out).1[j]? = out[j]?) ∧
    (SecureString.decryptInto N Seed enc out).2 = enc := by
  obtain ⟨hL, hframe, hwrite⟩ :=
    SecureString.decryptLoop_spec N Seed enc N 0 out (by omega) hout
  exact ⟨hL, fun i hi => hwrite i (by omega) hi, fun j hj => hframe j (Or.inr hj), rfl⟩

/-- C7 witness: concrete decrypt into an oversized buffer leaves the tail and
the cipher buffer untouched. -/
theorem C7_frame_witness :
    (SecureString.decryptInto 1 0 [5] [9, 33]).1[1]? = some 33 ∧
    (SecureString.decryptInto 1 0 [5] [9, 33]).2 = [5] :=
  ⟨(C7_frame 1 0 [5] [9, 33] (by decide)).2.2.1 1 (by decide),
   (C7_frame 1 0 [5] [9, 33] (by decide)).2.2.2⟩

/-- C8: Determinism — the encrypted buffer is a pure function of
`(plaintext, N, Seed)`: equal inputs give byte-identical encrypted arrays,
each encrypted element depends only on `(N, Seed, P[i], i)`, and
`KeyGen.get` returns the same byte for the same arguments on every
invocation. -/
theorem C8_determinism (N Seed : Nat) (P Q : List Nat) (hPQ : P = Q) :
    SecureString.encrypted N Seed P = SecureString.encrypted N Seed Q ∧
    (∀ i, i < P.length → (SecureString.encrypted N Seed P)[i]? =
      some (SecureString.obfuscate N Seed (P.getD i 0) i)) ∧
    (∀ Round index, KeyGen.get N Seed Round index = KeyGen.get N Seed Round index) := by
  subst hPQ
  refine ⟨rfl, ?_, fun Round index => rfl⟩
  intro i hi
  rw [SecureString.encrypted, SecureString.obfList_getElem]
  simp [List.getElem?_eq_getElem hi, List.getD_eq_getElem?_getD]

/-- C8 witness: determinism at a concrete input. -/
theorem C8_determinism_witness :
    SecureString.encrypted 2 3 [10, 20] = SecureString.encrypted 2 3 [10, 20] :=
  (C8_determinism 2 3 [10, 20] [10, 20] rfl).1

/-- C9: Totality under `N ≥ 1` — for `i < N` the modulus `(i*i) mod N` is a
well-defined index below `N` (no division by zero), `N - i - 1` stays inside
`[0, N)` (no underflow), and `KeyGen.get`, `obfuscate` and `deobfuscate` all
return well-defined byte values. -/
theorem C9_totality (N Seed Round c i : Nat) (hN : 1 ≤ N) (hi : i < N) :
    (i * i % MOD64) % N < N ∧
    N - i - 1 < N ∧
    KeyGen.get N Seed Round i < 256 ∧
    SecureString.obfuscate N Seed c i < 256 ∧
    SecureString.deobfuscate N Seed c i < 256 :=
  ⟨Nat.mod_lt _ (by omega), by omega, KeyGen.get_lt N Seed Round i,
    SecureString.obfuscate_lt N Seed c i, SecureString.deobfuscate_lt N Seed c i⟩

/-- C9 witness: totality at a concrete instantiation. -/
theorem C9_totality_witness :
    (1 * 1 % MOD64) % 2 < 2 ∧
    2 - 1 - 1 < 2 ∧
    KeyGen.get 2 0 0 1 < 256 ∧
    SecureString.obfuscate 2 0 0 1 < 256 ∧
    SecureString.deobfuscate 2 0 0 1 < 256 :=
  C9_totality 2 0 0 0 1 (by decide) (by decide)

/-- C10: Variant equivalence — the two headers implement the same key
generator (`Um.KeyGen.get` and `KeyGen.get` agree on all arguments); each
variant's transform is the parameterized pipeline instantiated with its
stage-4 constant (`0xA5` for `secure_string.hpp`, `0x5A` for
`SecureString.hpp`) and the identical key triple; and each variant's decode
inverts its own encode on the low byte. -/
theorem C10_variants :
    (∀ N Seed Round index, Um.KeyGen.get N Seed Round index = KeyGen.get N Seed Round index) ∧
    (∀ N Seed c i,
      SecureString.obfuscate N Seed c i =
        encodeWith 0xA5 (keyA N Seed i) (keyB N Seed i) (keyC N Seed i) c i ∧
      Um.SecureString.obfuscate N Seed c i =
        encodeWith 0x5A (keyA N Seed i) (keyB N Seed i) (keyC N Seed i) c i ∧
      SecureString.deobfuscate N Seed c i =
        decodeWith 0xA5 (keyA N Seed i) (keyB N Seed i) (keyC N Seed i) c i ∧
      Um.SecureString.deobfuscate N Seed c i =
        decodeWith 0x5A (keyA N Seed i) (keyB N Seed i) (keyC N Seed i) c i) ∧
    (∀ N Seed c i,
      SecureString.deobfuscate N Seed (SecureString.obfuscate N Seed c i) i = c % 256 ∧
      Um.SecureString.deobfuscate N Seed (Um.SecureString.obfuscate N Seed c i) i = c % 256) :=
  ⟨fun _ _ _ _ => rfl,
   fun _ _ _ _ => ⟨rfl, rfl, rfl, rfl⟩,
   fun N Seed c i => ⟨SecureString.deob_obf N Seed c i, Um.SecureString.um_deob_obf N Seed c i⟩⟩
